import Mathlib

/-!
A model of `src/lib.rs` of the `ezstr` crate: a grapheme-indexed string
engine.

Raw text is modeled by its byte sequence (`List Nat`), and an `EzStr` by
its grapheme segmentation: the list of byte sequences of its extended
grapheme clusters, as produced by the external Unicode segmenter
(`unicode_segmentation`, out of scope per the spec).  The segmenter's
contract guarantees every cluster is nonempty; this is recorded in the
field `clusters_ne`.

The source's `PartialEq` for `EzStr` compares only the raw text
(`self.data == other.data`), so equality of `EzStr` values is modeled as
equality of concatenated byte sequences, and operations that build a new
`EzStr` (such as `slice`) are modeled by the `data` of their result.

Machine integers (`i32`, `usize`) are modeled as `Int` / `Nat`; this is
exact for any string whose byte length is below `2^31`, and none of the
properties considered here involves integer overflow.  A Rust panic
(out-of-bounds indexing, `unwrap` failure) is modeled as `none`.
-/

/-- A grapheme-indexed string (`EzStr` in the source): the clusters
produced by the Unicode segmenter, each a nonempty byte sequence
(`Grapheme.value` holds the cluster's text; here, its bytes). -/
structure EzStr where
  clusters : List (List Nat)
  clusters_ne : ∀ c ∈ clusters, c ≠ []

/-- `EzStr::len`: the grapheme count, `self.graphemes().len()`. -/
def EzStr.len (s : EzStr) : Nat :=
  s.clusters.length

/-- The raw text `data`: the concatenation of the cluster bytes. -/
def EzStr.data (s : EzStr) : List Nat :=
  s.clusters.flatten

/-- The byte length of the raw text (`self.data.len()` in Rust). -/
def EzStr.byte_len (s : EzStr) : Nat :=
  s.data.length

/-- Builds `EzStr::graphemes_byte_index`, i.e.
`data.grapheme_indices(true).enumerate().map(|(gi, (bi, _))| (bi, gi))`:
one `(byte_offset, grapheme_index)` pair per cluster, where `off` is the
byte offset of the first listed cluster and `gi` its grapheme index. -/
def byteIdxAux : List (List Nat) → Nat → Nat → List (Nat × Nat)
  | [], _, _ => []
  | c :: rest, off, gi => (off, gi) :: byteIdxAux rest (off + c.length) (gi + 1)

/-- `EzStr::graphemes_byte_index`. -/
def EzStr.graphemes_byte_index (s : EzStr) : List (Nat × Nat) :=
  byteIdxAux s.clusters 0 0

/-- The lookup `EzStr::byte_range_to_grapheme_indices` performs for each
endpoint: `idx.binary_search_by_key(&b, |&(b, _)| b)` followed by
`Ok(i) => idx[i].1` and `Err(i) => idx.get(i).map(|&(_, gi)| gi).unwrap_or(self.len())`.
On a list whose byte offsets are strictly increasing (which
`graphemes_byte_index` always is, clusters being nonempty), the two
branches of the `binary_search_by_key` result together denote the
grapheme index of the first entry whose byte offset is `≥ b`, with `fb`
(`self.len()` at the call site) as fallback when every recorded offset is
`< b`; that is what this function computes. -/
def lookupGI : List (Nat × Nat) → Nat → Nat → Nat
  | [], fb, _ => fb
  | e :: rest, fb, b => if b ≤ e.1 then e.2 else lookupGI rest fb b

/-- One endpoint lookup of `EzStr::byte_range_to_grapheme_indices`. -/
def EzStr.byte_to_grapheme (s : EzStr) (b : Nat) : Nat :=
  lookupGI s.graphemes_byte_index s.len b

/-- `EzStr::byte_range_to_grapheme_indices`: the same lookup applied to
both ends of a byte range. -/
def EzStr.byte_range_to_grapheme_indices (s : EzStr) (b_start b_end : Nat) : Nat × Nat :=
  (s.byte_to_grapheme b_start, s.byte_to_grapheme b_end)

/-- The negative-index remapping at the top of `EzStr::slice`:
`if v < 0 { v = graphemes.len() as i32 + v + 1 }`. -/
def remapIndex (len : Nat) (v : Int) : Int :=
  if v < 0 then (len : Int) + v + 1 else v

/-- The loop `for i in start..end { ret += &graphemes[i as usize].value }`
of `EzStr::slice`, iterating `count` times starting at `i`.  Indexing
outside `0..gs.length` is a Rust panic (`i as usize` on a negative `i`
wraps far past any vector length), modeled as `none`. -/
def sliceGo (gs : List (List Nat)) (i : Int) (count : Nat) : Option (List Nat) :=
  match count with
  | 0 => some []
  | k + 1 =>
    if h : 0 ≤ i ∧ i.toNat < gs.length then
      match sliceGo gs (i + 1) k with
      | some rest => some (gs.get ⟨i.toNat, h.2⟩ ++ rest)
      | none => none
    else
      none

/-- `EzStr::slice`, returning the `data` of the resulting string
(`EzStr::new(&ret)` re-segments `ret` lazily and compares by `data`);
`none` models a panic in the loop.  The loop `start..end` runs
`(end - start).toNat` times. -/
def EzStr.slice (s : EzStr) (a b : Int) : Option (List Nat) :=
  sliceGo s.clusters (remapIndex s.len a) (remapIndex s.len b - remapIndex s.len a).toNat

/-- `GraphemeMatch`: start and end grapheme-cluster indices (end
exclusive; the source field is named `end`, which is reserved in Lean)
and the matched text, stored as an owned `EzStr` whose only observable
through `PartialEq` is its `data`. -/
structure GraphemeMatch where
  start : Nat
  endIdx : Nat
  text : List Nat
deriving DecidableEq

/-- `GraphemeMatch::is_valid`: re-slice the source at the recorded
indices and compare (as `EzStr`, i.e. by `data`) with the stored text;
`none` models a panic inside the `slice` call. -/
def GraphemeMatch.is_valid (m : GraphemeMatch) (source : EzStr) : Option Bool :=
  (source.slice (m.start : Int) (m.endIdx : Int)).map (fun a => decide (a = m.text))

/-- The translation `EzStr::find` and `EzStr::find_iter` apply to every
byte span `(m.start(), m.end())` reported by the external regex engine:
translate both endpoints with `byte_range_to_grapheme_indices`, then
materialize the matched text with `self.slice(g_start as i32, g_end as i32)`.
The engine itself is external (spec §6), so the model takes the reported
byte span as input. -/
def EzStr.translate_match (s : EzStr) (b_start b_end : Nat) : Option GraphemeMatch :=
  let g := s.byte_range_to_grapheme_indices b_start b_end
  (s.slice (g.1 : Int) (g.2 : Int)).map (fun t => ⟨g.1, g.2, t⟩)

/-- The construction of the diagnostic re-search pattern in
`GraphemeMatch::ensure_is_valid`: `b.data.as_str().replace("|", r"\|")`.
The needle `"|"` is the single byte 124, so `str::replace` is a per-byte
scan replacing each `|` by `\|` (bytes 92, 124). -/
def replace_pipe : List Nat → List Nat
  | [] => []
  | b :: rest => (if b = 124 then [92, 124] else [b]) ++ replace_pipe rest

/-- The metacharacters of the `regex` crate's pattern syntax (the bytes
escaped by `regex::escape`): `. ^ $ * + ? ( ) [ ] { } | \`. -/
def regexMeta (b : Nat) : Bool :=
  b ∈ [46, 94, 36, 42, 43, 63, 40, 41, 91, 93, 123, 125, 124, 92]

/-- Scan with the previous byte carried along: `true` when every
occurrence of `|` (byte 124) in the list is immediately preceded by a
backslash (byte 92).  `prev` seeds the predecessor of the first byte. -/
def pipesOk (prev : Nat) : List Nat → Bool
  | [] => true
  | b :: rest => (decide (b ≠ 124) || decide (prev = 92)) && pipesOk b rest

/-- Example string: a two-byte cluster (bytes `0xC8 0x81`, U+0201)
followed by the one-byte cluster `a`. -/
def exStr : EzStr :=
  ⟨[[200, 129], [97]], by decide⟩

/-- Example string: three one-byte clusters `a`, `b`, `c`. -/
def exStr3 : EzStr :=
  ⟨[[97], [98], [99]], by decide⟩

/-! ## Evaluation of the slice loop -/

theorem sliceGo_zero (gs : List (List Nat)) (i : Int) : sliceGo gs i 0 = some [] :=
  rfl

theorem sliceGo_some (gs : List (List Nat)) :
    ∀ (count : Nat) (i : Int), 0 ≤ i → i + count ≤ (gs.length : Int) →
      sliceGo gs i count = some ((gs.drop i.toNat).take count).flatten := by
  intro count
  induction count with
  | zero =>
      intro i hi hc
      simp [sliceGo]
  | succ k ih =>
      intro i hi hc
      have hb : 0 ≤ i ∧ i.toNat < gs.length := ⟨hi, by omega⟩
      have hrec := ih (i + 1) (by omega) (by omega)
      rw [sliceGo, dif_pos hb, hrec]
      have h1 : (i + 1).toNat = i.toNat + 1 := by omega
      have h2 : gs.drop i.toNat = gs.get ⟨i.toNat, hb.2⟩ :: gs.drop (i.toNat + 1) := by
        rw [List.get_eq_getElem]
        exact List.drop_eq_getElem_cons hb.2
      rw [h1, h2]
      simp only [List.take_succ_cons, List.flatten_cons]

theorem sliceGo_neg (gs : List (List Nat)) (count : Nat) (i : Int)
    (h0 : 0 < count) (hi : i < 0) : sliceGo gs i count = none := by
  cases count with
  | zero => omega
  | succ k =>
      have hb : ¬ (0 ≤ i ∧ i.toNat < gs.length) := by omega
      rw [sliceGo, dif_neg hb]

theorem sliceGo_none (gs : List (List Nat)) :
    ∀ (count : Nat) (i : Int), 0 < count → (gs.length : Int) < i + count →
      sliceGo gs i count = none := by
  intro count
  induction count with
  | zero => intro i h0 _; omega
  | succ k ih =>
      intro i h0 hc
      by_cases hb : 0 ≤ i ∧ i.toNat < gs.length
      · have hk : 0 < k := by omega
        rw [sliceGo, dif_pos hb, ih (i + 1) hk (by omega)]
      · rw [sliceGo, dif_neg hb]

/-! ## Claims about the slice engine -/

/-- Claim C1: `EzStr::slice` first remaps each negative index `v` to
`cluster_count + v + 1` (a nonnegative index is left unchanged), and the
result is the concatenation of the cluster texts at indices
`start..end` (end exclusive) after remapping.  Stated for remapped
indices the loop can traverse without a panic (`0 ≤ start'`,
`end' ≤ len`); a nonempty out-of-range remapped range panics instead
(see C5). -/
theorem slice_eq_remap_concat (s : EzStr) (a b : Int)
    (ha : 0 ≤ remapIndex s.len a) (hb : remapIndex s.len b ≤ (s.len : Int)) :
    s.slice a b =
      some (((s.clusters.drop (remapIndex s.len a).toNat).take
        ((remapIndex s.len b).toNat - (remapIndex s.len a).toNat)).flatten) := by
  rw [EzStr.slice]
  have hl : s.len = s.clusters.length := rfl
  rcases le_or_lt (remapIndex s.len b) (remapIndex s.len a) with hba | hab
  · have hc : (remapIndex s.len b - remapIndex s.len a).toNat = 0 := by omega
    have ht : (remapIndex s.len b).toNat - (remapIndex s.len a).toNat = 0 := by omega
    rw [hc, ht, sliceGo_zero]
    simp
  · have hc : (remapIndex s.len b - remapIndex s.len a).toNat
        = (remapIndex s.len b).toNat - (remapIndex s.len a).toNat := by omega
    rw [hc, sliceGo_some s.clusters _ _ ha (by omega)]

theorem slice_eq_remap_concat_witness :
    EzStr.slice exStr3 1 (-2) = some [98] := by
  have h := slice_eq_remap_concat exStr3 1 (-2) (by decide) (by decide)
  rw [h]
  decide

/-- Claim C7: for every grapheme-indexed string `s`, `s.slice(0, -1)`
returns a string equal to `s`: the index `-1` remaps to
`len + (-1) + 1 = len`, so the loop concatenates every cluster, giving a
string with the same `data` (the source's `PartialEq` compares `data`). -/
theorem slice_zero_negone_eq_self (s : EzStr) : s.slice 0 (-1) = some s.data := by
  have h0 : remapIndex s.len 0 = 0 := by simp [remapIndex]
  have h1 : remapIndex s.len (-1) = (s.len : Int) := by
    simp [remapIndex]
  rw [EzStr.slice, h0, h1]
  have hc : ((s.len : Int) - 0).toNat = s.len := by omega
  have hl : s.len = s.clusters.length := rfl
  rw [hc, sliceGo_some s.clusters s.len 0 (le_refl 0) (by omega)]
  simp [EzStr.data, hl]

/-- Claim C10: whenever the remapped indices satisfy `start ≥ end`, the
`start..end` loop body never runs, so `slice` returns the empty string
with no error or panic, even when the remapped indices are out of
range: bounds are only checked for indices actually iterated. -/
theorem slice_empty_range (s : EzStr) (a b : Int)
    (h : remapIndex s.len b ≤ remapIndex s.len a) :
    s.slice a b = some [] := by
  rw [EzStr.slice]
  have hc : (remapIndex s.len b - remapIndex s.len a).toNat = 0 := by omega
  rw [hc, sliceGo_zero]

theorem slice_empty_range_witness : EzStr.slice exStr 5 3 = some [] :=
  slice_empty_range exStr 5 3 (by decide)

/-- Claim C5 counterexample: on `exStr` (2 clusters) the call
`slice(5, 3)` has remapped start index `5`, outside `[0, 2]`, yet the
operation does not fail: it silently returns the empty string, because
the empty iteration range performs no bounds check. -/
theorem slice_oob_empty_cex :
    remapIndex exStr.len 5 = 5 ∧ ¬ ((5 : Int) ≤ (exStr.len : Int)) ∧
      EzStr.slice exStr 5 3 = some [] := by
  refine ⟨by decide, by decide, ?_⟩
  decide

/-- Claim C5 (amended): when the remapped range is nonempty
(`start' < end'`) and some remapped index lies outside `[0, len]`, the
slice operation fails loudly (an out-of-bounds panic, modeled as
`none`); it never silently clamps or wraps.  (When `start' ≥ end'` the
empty string is returned without any bounds check — see C10.) -/
theorem slice_oob_fails (s : EzStr) (a b : Int)
    (hne : remapIndex s.len a < remapIndex s.len b)
    (hout : remapIndex s.len a < 0 ∨ (s.len : Int) < remapIndex s.len a ∨
      remapIndex s.len b < 0 ∨ (s.len : Int) < remapIndex s.len b) :
    s.slice a b = none := by
  rw [EzStr.slice]
  have hl : s.len = s.clusters.length := rfl
  have hcount : 0 < (remapIndex s.len b - remapIndex s.len a).toNat := by omega
  rcases hout with h | h | h | h
  · exact sliceGo_neg _ _ _ hcount h
  · exact sliceGo_none _ _ _ hcount (by omega)
  · exact sliceGo_neg _ _ _ hcount (by omega)
  · exact sliceGo_none _ _ _ hcount (by omega)

theorem slice_oob_fails_witness : EzStr.slice exStr 0 5 = none :=
  slice_oob_fails exStr 0 5 (by decide) (Or.inr (Or.inr (Or.inr (by decide))))

/-! ## The byte-to-grapheme locator -/

theorem byteIdxAux_mem_off (cs : List (List Nat)) :
    ∀ (off gi : Nat) (p : Nat × Nat), p ∈ byteIdxAux cs off gi → off ≤ p.1 := by
  induction cs with
  | nil => intro off gi p h; simp [byteIdxAux] at h
  | cons c rest ih =>
      intro off gi p h
      simp only [byteIdxAux, List.mem_cons] at h
      rcases h with h | h
      · simp [h]
      · have := ih (off + c.length) (gi + 1) p h
        omega

theorem byteIdxAux_mem_gi_lb (cs : List (List Nat)) :
    ∀ (off gi : Nat) (p : Nat × Nat), p ∈ byteIdxAux cs off gi → gi ≤ p.2 := by
  induction cs with
  | nil => intro off gi p h; simp [byteIdxAux] at h
  | cons c rest ih =>
      intro off gi p h
      simp only [byteIdxAux, List.mem_cons] at h
      rcases h with h | h
      · simp [h]
      · have := ih (off + c.length) (gi + 1) p h
        omega

theorem byteIdxAux_mem_gi_ub (cs : List (List Nat)) :
    ∀ (off gi : Nat) (p : Nat × Nat), p ∈ byteIdxAux cs off gi → p.2 < gi + cs.length := by
  induction cs with
  | nil => intro off gi p h; simp [byteIdxAux] at h
  | cons c rest ih =>
      intro off gi p h
      simp only [byteIdxAux, List.mem_cons] at h
      rcases h with h | h
      · simp [h, List.length_cons]
      · have := ih (off + c.length) (gi + 1) p h
        simp only [List.length_cons]
        omega

theorem lookupGI_mem_or (l : List (Nat × Nat)) (fb b : Nat) :
    lookupGI l fb b = fb ∨ ∃ p ∈ l, lookupGI l fb b = p.2 ∧ b ≤ p.1 := by
  induction l with
  | nil => left; rfl
  | cons e rest ih =>
      by_cases hb : b ≤ e.1
      · right
        exact ⟨e, List.mem_cons_self _ _, by simp [lookupGI, hb], hb⟩
      · rcases ih with h | ⟨p, hp, hq, hr⟩
        · left; simp [lookupGI, hb, h]
        · right
          exact ⟨p, List.mem_cons_of_mem _ hp, by simp [lookupGI, hb, hq], hr⟩

theorem lookupGI_exact (cs : List (List Nat)) :
    ∀ (off gi fb b g : Nat), (∀ c ∈ cs, c ≠ []) → (b, g) ∈ byteIdxAux cs off gi →
      lookupGI (byteIdxAux cs off gi) fb b = g := by
  induction cs with
  | nil => intro off gi fb b g _ h; simp [byteIdxAux] at h
  | cons c rest ih =>
      intro off gi fb b g hne h
      simp only [byteIdxAux, List.mem_cons] at h
      rcases h with h | h
      · rw [Prod.mk.injEq] at h
        obtain ⟨rfl, rfl⟩ := h
        simp [byteIdxAux, lookupGI]
      · have hoff := byteIdxAux_mem_off rest (off + c.length) (gi + 1) (b, g) h
        have hcpos : 0 < c.length := List.length_pos.2 (hne c (List.mem_cons_self c rest))
        have hnb : ¬ b ≤ off := by simp only at hoff; omega
        have hrec := ih (off + c.length) (gi + 1) fb b g
          (fun c hc => hne c (List.mem_cons_of_mem _ hc)) h
        simp only [byteIdxAux, lookupGI, if_neg hnb]
        exact hrec

theorem lookupGI_following (cs : List (List Nat)) :
    ∀ (off gi fb b : Nat) (p : Nat × Nat), (∀ c ∈ cs, c ≠ []) →
      p ∈ byteIdxAux cs off gi → b ≤ p.1 →
      (∀ q ∈ byteIdxAux cs off gi, b ≤ q.1 → p.1 ≤ q.1) →
      lookupGI (byteIdxAux cs off gi) fb b = p.2 := by
  induction cs with
  | nil => intro off gi fb b p _ h; simp [byteIdxAux] at h
  | cons c rest ih =>
      intro off gi fb b p hne hmem hble hmin
      have hcpos : 0 < c.length := List.length_pos.2 (hne c (List.mem_cons_self c rest))
      simp only [byteIdxAux, List.mem_cons] at hmem
      by_cases hb : b ≤ off
      · have hminoff : p.1 ≤ off := hmin (off, gi) (by simp [byteIdxAux]) hb
        rcases hmem with h | h
        · rw [h]
          simp [byteIdxAux, lookupGI, hb]
        · have := byteIdxAux_mem_off rest (off + c.length) (gi + 1) p h
          omega
      · rcases hmem with h | h
        · rw [h] at hble
          simp only at hble
          omega
        · have hmin' : ∀ q ∈ byteIdxAux rest (off + c.length) (gi + 1), b ≤ q.1 → p.1 ≤ q.1 := by
            intro q hq hbq
            exact hmin q (List.mem_cons_of_mem _ hq) hbq
          have hrec := ih (off + c.length) (gi + 1) fb b p
            (fun c hc => hne c (List.mem_cons_of_mem _ hc)) h hble hmin'
          simp only [byteIdxAux, lookupGI, if_neg hb]
          exact hrec

theorem lookupGI_past (l : List (Nat × Nat)) (fb b : Nat)
    (h : ∀ q ∈ l, q.1 < b) : lookupGI l fb b = fb := by
  induction l with
  | nil => rfl
  | cons e rest ih =>
      have he : e.1 < b := h e (List.mem_cons_self _ _)
      have hnb : ¬ b ≤ e.1 := by omega
      simp only [lookupGI, if_neg hnb]
      exact ih (fun q hq => h q (List.mem_cons_of_mem _ hq))

theorem lookupGI_mono (cs : List (List Nat)) :
    ∀ (off gi fb b1 b2 : Nat), b1 ≤ b2 → gi + cs.length ≤ fb →
      lookupGI (byteIdxAux cs off gi) fb b1 ≤ lookupGI (byteIdxAux cs off gi) fb b2 := by
  induction cs with
  | nil => intro off gi fb b1 b2 _ _; exact le_refl _
  | cons c rest ih =>
      intro off gi fb b1 b2 h12 hfb
      simp only [List.length_cons] at hfb
      by_cases hb1 : b1 ≤ off
      · have hL : lookupGI (byteIdxAux (c :: rest) off gi) fb b1 = gi := by
          simp [byteIdxAux, lookupGI, hb1]
        rw [hL]
        by_cases hb2 : b2 ≤ off
        · simp [byteIdxAux, lookupGI, hb2]
        · have hR : lookupGI (byteIdxAux (c :: rest) off gi) fb b2
              = lookupGI (byteIdxAux rest (off + c.length) (gi + 1)) fb b2 := by
            simp [byteIdxAux, lookupGI, hb2]
          rw [hR]
          rcases lookupGI_mem_or (byteIdxAux rest (off + c.length) (gi + 1)) fb b2 with
            h | ⟨p, hp, hq, _⟩
          · rw [h]; omega
          · rw [hq]
            have := byteIdxAux_mem_gi_lb rest (off + c.length) (gi + 1) p hp
            omega
      · have hb2 : ¬ b2 ≤ off := by omega
        have hL : lookupGI (byteIdxAux (c :: rest) off gi) fb b1
            = lookupGI (byteIdxAux rest (off + c.length) (gi + 1)) fb b1 := by
          simp [byteIdxAux, lookupGI, hb1]
        have hR : lookupGI (byteIdxAux (c :: rest) off gi) fb b2
            = lookupGI (byteIdxAux rest (off + c.length) (gi + 1)) fb b2 := by
          simp [byteIdxAux, lookupGI, hb2]
        rw [hL, hR]
        exact ih (off + c.length) (gi + 1) fb b1 b2 h12 (by omega)

/-! ## Claims about the locator -/

/-- Claim C2: for every byte offset `b` in `[0, byte length]`, the
byte-to-grapheme lookup returns: the cluster's grapheme index when `b`
exactly equals a recorded cluster-start byte offset; otherwise the
grapheme index of the nearest following recorded entry (the entry with
the smallest recorded offset `≥ b`); and the total grapheme count when
`b` is past all recorded offsets. -/
theorem byte_lookup_cases (s : EzStr) (b : Nat) (_hb : b ≤ s.byte_len) :
    (∀ p ∈ s.graphemes_byte_index, p.1 = b → s.byte_to_grapheme b = p.2)
    ∧ (∀ p ∈ s.graphemes_byte_index, b ≤ p.1 →
        (∀ q ∈ s.graphemes_byte_index, b ≤ q.1 → p.1 ≤ q.1) →
        (∀ q ∈ s.graphemes_byte_index, q.1 ≠ b) →
        s.byte_to_grapheme b = p.2)
    ∧ ((∀ p ∈ s.graphemes_byte_index, p.1 < b) → s.byte_to_grapheme b = s.len) := by
  refine ⟨?_, ?_, ?_⟩
  · intro p hp hpb
    have hmem : (b, p.2) ∈ s.graphemes_byte_index := by
      rw [← hpb]
      simpa using hp
    exact lookupGI_exact s.clusters 0 0 s.len b p.2 s.clusters_ne hmem
  · intro p hp hble hmin _
    exact lookupGI_following s.clusters 0 0 s.len b p s.clusters_ne hp hble hmin
  · intro hpast
    exact lookupGI_past _ _ _ hpast

theorem byte_lookup_cases_witness :
    EzStr.byte_to_grapheme exStr 2 = 1 ∧ EzStr.byte_to_grapheme exStr 1 = 1 ∧
      EzStr.byte_to_grapheme exStr 3 = 2 := by
  refine ⟨?_, ?_, ?_⟩
  · exact (byte_lookup_cases exStr 2 (by decide)).1 (2, 1) (by decide) rfl
  · exact (byte_lookup_cases exStr 1 (by decide)).2.1 (2, 1) (by decide) (by decide) (by decide)
      (by decide)
  · exact (byte_lookup_cases exStr 3 (by decide)).2.2 (by decide)

/-- Claim C8: the byte-to-grapheme lookup is total on `[0, L]` (`L` the
byte length) — it returns a grapheme index in `[0, len]` for every
offset in that range — and is monotonically non-decreasing there. -/
theorem byte_lookup_total_mono (s : EzStr) :
    (∀ b, b ≤ s.byte_len → s.byte_to_grapheme b ≤ s.len)
    ∧ (∀ b1 b2, b1 ≤ b2 → b1 ≤ s.byte_len → b2 ≤ s.byte_len →
        s.byte_to_grapheme b1 ≤ s.byte_to_grapheme b2) := by
  constructor
  · intro b _
    rcases lookupGI_mem_or s.graphemes_byte_index s.len b with h | ⟨p, hp, hq, _⟩
    · rw [EzStr.byte_to_grapheme, h]
    · rw [EzStr.byte_to_grapheme, hq]
      have hub := byteIdxAux_mem_gi_ub s.clusters 0 0 p hp
      have hl : s.len = s.clusters.length := rfl
      omega
  · intro b1 b2 h12 _ _
    have hfb : (0 : Nat) + s.clusters.length ≤ s.len := by
      have hl : s.len = s.clusters.length := rfl
      omega
    exact lookupGI_mono s.clusters 0 0 s.len b1 b2 h12 hfb

theorem byte_lookup_total_mono_witness :
    EzStr.byte_to_grapheme exStr 0 ≤ exStr.len ∧
      EzStr.byte_to_grapheme exStr 1 ≤ EzStr.byte_to_grapheme exStr 3 :=
  ⟨(byte_lookup_total_mono exStr).1 0 (by decide),
    (byte_lookup_total_mono exStr).2 1 3 (by decide) (by decide) (by decide)⟩

/-! ## Shared bounds for the locator lookup -/

theorem byte_to_grapheme_le (s : EzStr) (b : Nat) : s.byte_to_grapheme b ≤ s.len := by
  rcases lookupGI_mem_or s.graphemes_byte_index s.len b with h | ⟨p, hp, hq, _⟩
  · rw [EzStr.byte_to_grapheme, h]
  · rw [EzStr.byte_to_grapheme, hq]
    have hub := byteIdxAux_mem_gi_ub s.clusters 0 0 p hp
    have hl : s.len = s.clusters.length := rfl
    omega

theorem byte_to_grapheme_mono (s : EzStr) (b1 b2 : Nat) (h : b1 ≤ b2) :
    s.byte_to_grapheme b1 ≤ s.byte_to_grapheme b2 := by
  have hfb : (0 : Nat) + s.clusters.length ≤ s.len := by
    have hl : s.len = s.clusters.length := rfl
    omega
  exact lookupGI_mono s.clusters 0 0 s.len b1 b2 h hfb

/-- `slice` at nonnegative (cast from `Nat`) indices with the end index
in range never panics and concatenates the clusters of the range. -/
theorem slice_natCast (s : EzStr) (g1 g2 : Nat) (h2 : g2 ≤ s.len) :
    s.slice (g1 : Int) (g2 : Int) =
      some (((s.clusters.drop g1).take (g2 - g1)).flatten) := by
  rw [EzStr.slice]
  have hl : s.len = s.clusters.length := rfl
  have ha : remapIndex s.len (g1 : Int) = (g1 : Int) := by
    rw [remapIndex, if_neg (by omega)]
  have hb : remapIndex s.len (g2 : Int) = (g2 : Int) := by
    rw [remapIndex, if_neg (by omega)]
  rw [ha, hb]
  rcases le_or_lt g2 g1 with h21 | h12
  · have hc : ((g2 : Int) - (g1 : Int)).toNat = 0 := by omega
    have ht : g2 - g1 = 0 := by omega
    rw [hc, ht, sliceGo_zero]
    simp
  · have hc : ((g2 : Int) - (g1 : Int)).toNat = g2 - g1 := by omega
    rw [hc, sliceGo_some s.clusters (g2 - g1) (g1 : Int) (by omega) (by omega)]
    have hn : ((g1 : Int)).toNat = g1 := by omega
    rw [hn]

/-! ## Claims about the pattern match translator -/

/-- Claim C4: each byte span `(b_start, b_end)` reported by the engine is
returned as a match whose `start` and `end` are the locator translations
of the endpoints, and whose stored text equals
`s.slice(g_start, g_end)` — reconstructed from grapheme-cluster
boundaries (the concatenation of the clusters in `[g_start, g_end)`),
not taken verbatim from the byte span.  The accompanying witness shows a
byte span not aligned to cluster boundaries whose reconstructed text
differs from the exact bytes matched. -/
theorem translated_match_shape (s : EzStr) (b_start b_end g_start g_end : Nat)
    (hg : s.byte_range_to_grapheme_indices b_start b_end = (g_start, g_end)) :
    s.translate_match b_start b_end =
      some ⟨g_start, g_end, ((s.clusters.drop g_start).take (g_end - g_start)).flatten⟩ ∧
    s.slice (g_start : Int) (g_end : Int) =
      some (((s.clusters.drop g_start).take (g_end - g_start)).flatten) := by
  rw [EzStr.byte_range_to_grapheme_indices, Prod.mk.injEq] at hg
  obtain ⟨hg1, hg2⟩ := hg
  have hle : g_end ≤ s.len := hg2 ▸ byte_to_grapheme_le s b_end
  constructor
  · simp only [EzStr.translate_match, EzStr.byte_range_to_grapheme_indices]
    rw [hg1, hg2, slice_natCast s g_start g_end hle]
    rfl
  · exact slice_natCast s g_start g_end hle

theorem translated_match_shape_witness :
    EzStr.translate_match exStr 0 1 = some ⟨0, 1, [200, 129]⟩ ∧
      (exStr.data.drop 0).take (1 - 0) = [200] ∧ ([200, 129] : List Nat) ≠ [200] := by
  refine ⟨?_, by decide, by decide⟩
  have h := (translated_match_shape exStr 0 1 0 1 (by decide)).1
  rw [h]
  decide

/-- Claim C3: every match the translator produces from an
engine-reported byte span over its own source string validates:
`is_valid(source)` returns `true` (the validator re-runs the very slice
the translator used to build the stored text). -/
theorem translated_match_is_valid (s : EzStr) (b_start b_end : Nat) (m : GraphemeMatch)
    (hm : s.translate_match b_start b_end = some m) :
    m.is_valid s = some true := by
  simp only [EzStr.translate_match, EzStr.byte_range_to_grapheme_indices] at hm
  rw [Option.map_eq_some'] at hm
  obtain ⟨t, hs, hm⟩ := hm
  subst hm
  simp only [GraphemeMatch.is_valid]
  rw [hs]
  simp

theorem translated_match_is_valid_witness :
    GraphemeMatch.is_valid ⟨0, 2, [200, 129, 97]⟩ exStr = some true :=
  translated_match_is_valid exStr 0 3 ⟨0, 2, [200, 129, 97]⟩ (by decide)

/-- Claim C9: every match produced from an engine span with
`b_start ≤ b_end` satisfies `0 ≤ start ≤ end ≤ source length` (in
grapheme clusters): the locator lookup is monotone and bounded by the
grapheme count. -/
theorem translated_match_in_range (s : EzStr) (b_start b_end : Nat) (hbe : b_start ≤ b_end) :
    ∀ m, s.translate_match b_start b_end = some m →
      m.start ≤ m.endIdx ∧ m.endIdx ≤ s.len := by
  intro m hm
  simp only [EzStr.translate_match, EzStr.byte_range_to_grapheme_indices] at hm
  rw [Option.map_eq_some'] at hm
  obtain ⟨t, hs, hm⟩ := hm
  subst hm
  exact ⟨byte_to_grapheme_mono s b_start b_end hbe, byte_to_grapheme_le s b_end⟩

theorem translated_match_in_range_witness :
    (⟨0, 2, [200, 129, 97]⟩ : GraphemeMatch).start ≤
        (⟨0, 2, [200, 129, 97]⟩ : GraphemeMatch).endIdx ∧
      (⟨0, 2, [200, 129, 97]⟩ : GraphemeMatch).endIdx ≤ exStr.len :=
  translated_match_in_range exStr 0 3 (by decide) ⟨0, 2, [200, 129, 97]⟩ (by decide)

/-! ## Claim about the diagnostic re-search escaping -/

/-- Claim C6 counterexample: the diagnostic pattern built by
`ensure_is_valid` for the stored text `"("` (byte 40) is `"("` itself:
the metacharacter `(` is not escaped (no backslash appears at all), so
it is not true that every pattern metacharacter is escaped — in the
source, `Regex::new("(").unwrap()` then panics with a pattern-syntax
error. -/
theorem diag_escape_cex :
    replace_pipe [40] = [40] ∧ regexMeta 40 = true ∧ ¬ (92 ∈ replace_pipe [40]) :=
  ⟨by decide, by decide, by decide⟩

/-- Claim C6 (amended): the diagnostic re-search escapes only the `|`
metacharacter: text without `|` is used verbatim as the pattern (other
metacharacters are passed through unescaped, so a pattern-syntax error
remains possible), and in the constructed pattern every `|` is
immediately preceded by a backslash. -/
theorem diag_escape_only_pipe :
    (∀ t, (∀ b ∈ t, b ≠ 124) → replace_pipe t = t)
    ∧ (∀ t prev, pipesOk prev (replace_pipe t) = true) := by
  constructor
  · intro t h
    induction t with
    | nil => rfl
    | cons b rest ih =>
        have hb : b ≠ 124 := h b (List.mem_cons_self _ _)
        rw [replace_pipe, if_neg hb, ih (fun q hq => h q (List.mem_cons_of_mem _ hq))]
        rfl
  · intro t
    induction t with
    | nil => intro prev; rfl
    | cons b rest ih =>
        intro prev
        by_cases hb : b = 124
        · subst hb
          rw [replace_pipe, if_pos rfl]
          show pipesOk prev (92 :: 124 :: replace_pipe rest) = true
          simp [pipesOk, ih 124]
        · rw [replace_pipe, if_neg hb]
          show pipesOk prev (b :: replace_pipe rest) = true
          simp [pipesOk, hb, ih b]

theorem diag_escape_only_pipe_witness :
    replace_pipe [97, 40] = [97, 40] ∧ pipesOk 0 (replace_pipe [97, 124]) = true :=
  ⟨diag_escape_only_pipe.1 [97, 40] (by decide), diag_escape_only_pipe.2 [97, 124] 0⟩
